import Mathlib

/-!
Verification development for the declaration bundler in `src/index.ts` of
charto/autodts-generator.

The embedding below translates the source into Lean:
strings are modelled as `List Char`, the TypeScript AST as a mutual
inductive `Node`/`NodeList` (each node carries `pos`, `end`, `kind`,
literal `text` and its `forEachChild` children), and the stateful pieces
of `generate` as explicit state passing.  Machine integers do not occur;
all positions are natural numbers as in the source (non-negative JS
numbers).
-/

namespace DtsGen

/-- JavaScript `String.prototype.slice` index clamping: a negative index
counts from the end, and the result is clamped into `[0, len]`. -/
def jsClamp (len : Nat) (i : Int) : Nat :=
  if i < 0 then (max ((len : Int) + i) 0).toNat else min i.toNat len

/-- JavaScript `s.slice(a, b)` on a string modelled as `List Char`. -/
def jsSlice (s : List Char) (a b : Int) : List Char :=
  let a' := jsClamp s.length a
  let b' := jsClamp s.length b
  (s.drop a').take (b' - a')

/-- JavaScript one-argument `s.slice(a)` (slice to the end). -/
def jsSliceFrom (s : List Char) (a : Int) : List Char :=
  jsSlice s a (s.length : Int)

/-- Slice for non-negative positions, as used by `processTree`'s cursor
(`sourceFile.text.slice(cursorPosition, node.pos)`); agrees with `jsSlice`
on natural-number arguments. -/
def sliceStr (s : List Char) (a b : Nat) : List Char :=
  (s.drop a).take (b - a)

/-- The `ts.SyntaxKind` members inspected by the source, plus a catch-all
for every other kind. -/
inductive SyntaxKind where
  | ExternalModuleReference
  | DeclareKeyword
  | StringLiteral
  | ExportDeclaration
  | ImportDeclaration
  | SourceFileKind
  | ImportEqualsDeclaration
  | ExportAssignment
  | Identifier
  | EndOfFileToken
  | other (n : Nat)
deriving DecidableEq

mutual

/-- A TypeScript AST node: `pos` (start, leading trivia included), `end`,
`kind`, the cooked literal `text` (meaningful for string literals), and
the children enumerated by `ts.forEachChild`. -/
inductive Node where
  | mk (pos endP : Nat) (kind : SyntaxKind) (text : List Char) (children : NodeList)

/-- A list of sibling nodes (a separate inductive so that all recursive
functions below are structural and compute definitionally). -/
inductive NodeList where
  | nil
  | cons (c : Node) (cs : NodeList)

end

def Node.pos : Node → Nat
  | .mk p _ _ _ _ => p

def Node.endP : Node → Nat
  | .mk _ e _ _ _ => e

def Node.kind : Node → SyntaxKind
  | .mk _ _ k _ _ => k

def Node.text : Node → List Char
  | .mk _ _ _ t _ => t

def Node.children : Node → NodeList
  | .mk _ _ _ _ cs => cs

/-- The sibling list as an ordinary Lean list (for membership statements). -/
def NodeList.toList : NodeList → List Node
  | .nil => []
  | .cons c cs => c :: cs.toList

/-- In the TypeScript AST an `ExternalModuleReference`'s `expression` is its
only `forEachChild` child; the cast `(<ts.ExternalModuleReference> node).expression`
is modelled as the first child. -/
def Node.expression (n : Node) : Node :=
  match n.children with
  | .nil => Node.mk 0 0 (SyntaxKind.other 0) [] .nil
  | .cons c _ => c

/-- A `ts.SourceFile` as consumed by `processTree` and `writeDeclaration`:
its file name, full original text, node tree (the source-file node itself),
whether it is an external module (`externalModuleIndicator`), and its
`referencedFiles` (the `refPath.fileName` strings, in order). -/
structure SourceFile where
  fileName : List Char
  text : List Char
  root : Node
  externalModuleIndicator : Bool
  referencedFiles : List (List Char)

/-- The replacer callback of `processTree`: `(node, parent) => string`,
where a JS `null`/`undefined` result is `none`.  The parent is `none`
exactly for the initial `visit(sourceFile, null)` call. -/
def Replacer := Node → Option Node → Option (List Char)

mutual

/-- All nodes of a tree, the node itself first (pre-order). -/
def allNodes : Node → List Node
  | .mk p e k t cs => Node.mk p e k t cs :: allNodesL cs

/-- All nodes of a forest, in order. -/
def allNodesL : NodeList → List Node
  | .nil => []
  | .cons c cs => allNodes c ++ allNodesL cs

end

mutual

/-- Well-formedness of a parsed node, as guaranteed by the TypeScript
parser: `pos ≤ end`, `end` within `hi`, and children spans nested in the
node's span, in order. -/
def wfNb (hi : Nat) : Node → Bool
  | .mk p e _ _ cs => decide (p ≤ e) && decide (e ≤ hi) && wfLb p e cs

/-- Well-formedness of a forest: the first child starts at or after `lo`,
each later child at or after its predecessor's end, all ends within `hi`. -/
def wfLb (lo hi : Nat) : NodeList → Bool
  | .nil => true
  | .cons c cs => decide (lo ≤ c.pos) && wfNb hi c && wfLb c.endP hi cs

end

/-- A well-formed source unit: its tree is well-formed within the text. -/
def SourceFile.WF (sf : SourceFile) : Bool :=
  wfNb sf.text.length sf.root

mutual

/-- The recursive `visit` of `processTree` (src/index.ts lines 78-91),
with the two closure variables `code` and `cursorPosition` passed as an
explicit accumulator.  `readThrough` appends `text.slice(cursor, node.pos)`
and moves the cursor to `node.pos`; a non-null replacement is appended and
`skip` moves the cursor to `node.end`; otherwise the children are visited
with this node as their parent. -/
def visit (text : List Char) (r : Replacer) (parent : Option Node) :
    Node → List Char × Nat → List Char × Nat
  | .mk p e k t cs, acc =>
    let code := acc.1 ++ sliceStr text acc.2 p
    match r (Node.mk p e k t cs) parent with
    | some rep => (code ++ rep, e)
    | none => visitChildren text r (some (Node.mk p e k t cs)) cs (code, p)

/-- Folding `visit` over a node's children, as `ts.forEachChild` does. -/
def visitChildren (text : List Char) (r : Replacer) (parent : Option Node) :
    NodeList → List Char × Nat → List Char × Nat
  | .nil, acc => acc
  | .cons c cs, acc => visitChildren text r parent cs (visit text r parent c acc)

end

/-- src/index.ts lines 65-97: `processTree(sourceFile, replacer)`. -/
def processTree (sf : SourceFile) (r : Replacer) : List Char :=
  let acc := visit sf.text r none sf.root ([], 0)
  acc.1 ++ sliceStr sf.text acc.2 sf.text.length

/-- One segment of the decomposition of `processTree`'s output: either an
untouched span `[a, b)` of the original text copied verbatim, or the span
`[a, b)` of a node whose replacement fired, replaced by the string `s`. -/
inductive Seg where
  | keep (a b : Nat)
  | subst (a b : Nat) (s : List Char)

mutual

/-- The segment decomposition produced by visiting one node: the traversal
of `visit`, recorded as segments instead of emitted text, together with the
final cursor position. -/
def segsN (r : Replacer) (parent : Option Node) : Node → Nat → List Seg × Nat
  | .mk p e k t cs, cursor =>
    match r (Node.mk p e k t cs) parent with
    | some rep => ([Seg.keep cursor p, Seg.subst p e rep], e)
    | none =>
      let res := segsL r (some (Node.mk p e k t cs)) cs p
      (Seg.keep cursor p :: res.1, res.2)

/-- Segment decomposition of a traversal of a forest of children. -/
def segsL (r : Replacer) (parent : Option Node) : NodeList → Nat → List Seg × Nat
  | .nil, cursor => ([], cursor)
  | .cons c cs, cursor =>
    let r1 := segsN r parent c cursor
    let r2 := segsL r parent cs r1.2
    (r1.1 ++ r2.1, r2.2)

end

/-- The full segment decomposition of `processTree sf r`, including the
trailing `text.slice(cursorPosition)` copy. -/
def segsAll (sf : SourceFile) (r : Replacer) : List Seg :=
  let res := segsN r none sf.root 0
  res.1 ++ [Seg.keep res.2 sf.text.length]

/-- Rendering a segment into output text: untouched spans are sliced from
the original text, replaced spans contribute their replacement string. -/
def renderOut (text : List Char) : Seg → List Char
  | .keep a b => sliceStr text a b
  | .subst _ _ s => s

def renderOutL (text : List Char) : List Seg → List Char
  | [] => []
  | s :: l => renderOut text s ++ renderOutL text l

/-- Rendering a segment back into the original text: both kinds of segment
stand for their original span. -/
def renderOrig (text : List Char) : Seg → List Char
  | .keep a b => sliceStr text a b
  | .subst a b _ => sliceStr text a b

def renderOrigL (text : List Char) : List Seg → List Char
  | [] => []
  | s :: l => renderOrig text s ++ renderOrigL text l

def segStart : Seg → Nat
  | .keep a _ => a
  | .subst a _ _ => a

def segEnd : Seg → Nat
  | .keep _ b => b
  | .subst _ b _ => b

/-- The segments tile the interval `[a, b)` contiguously, in order, with no
gap, overlap or duplication. -/
def Chained : Nat → Nat → List Seg → Prop
  | a, b, [] => a = b
  | a, b, s :: l => segStart s = a ∧ segStart s ≤ segEnd s ∧ Chained (segEnd s) b l

mutual

/-- The (node, parent) pairs on which `visit` evaluates the replacer, in
visit order: the node itself, then - only when no replacement fired - the
pairs of its subtrees. -/
def queriedN (r : Replacer) (parent : Option Node) : Node → List (Node × Option Node)
  | .mk p e k t cs =>
    (Node.mk p e k t cs, parent) ::
      (match r (Node.mk p e k t cs) parent with
       | some _ => []
       | none => queriedL r (some (Node.mk p e k t cs)) cs)

/-- The queried pairs of a forest of children. -/
def queriedL (r : Replacer) (parent : Option Node) : NodeList → List (Node × Option Node)
  | .nil => []
  | .cons c cs => queriedN r parent c ++ queriedL r parent cs

end

/-- All replacer calls made by `processTree sf r`. -/
def queriedAll (sf : SourceFile) (r : Replacer) : List (Node × Option Node) :=
  queriedN r none sf.root

/-- src/index.ts lines 24-36: `filenameToMid`, parametrised by the host
path separator `pathUtil.sep`: on a forward-slash host the identity,
otherwise every separator character replaced by a forward slash (the
single-character global regex replace of the source). -/
def filenameToMid (sep : Char) (filename : List Char) : List Char :=
  if sep = '/' then filename
  else filename.map (fun c => if c = sep then '/' else c)

/-- Splitting a path into `/`-separated segments (empty segments kept). -/
def splitSegs (p : List Char) : List (List Char) :=
  p.foldr
    (fun c acc =>
      match acc with
      | [] => if c = '/' then [[], []] else [[c]]
      | seg :: rest => if c = '/' then [] :: seg :: rest else (c :: seg) :: rest)
    [[]]

/-- The segment normalisation of Node's `path.posix` (`normalizeString`):
drop empty and `.` segments, cancel `..` against a preceding segment, and
keep leading `..` only when `allowAboveRoot` is set. -/
def normSegs (allowAboveRoot : Bool) : List (List Char) → List (List Char) → List (List Char)
  | acc, [] => acc.reverse
  | acc, seg :: rest =>
    if seg = [] ∨ seg = ".".toList then normSegs allowAboveRoot acc rest
    else if seg = "..".toList then
      match acc with
      | top :: acc' =>
        if top = "..".toList then normSegs allowAboveRoot (seg :: top :: acc') rest
        else normSegs allowAboveRoot acc' rest
      | [] =>
        if allowAboveRoot then normSegs allowAboveRoot [seg] rest
        else normSegs allowAboveRoot [] rest
    else normSegs allowAboveRoot (seg :: acc) rest

/-- Models Node's `path.posix.normalize` (trailing-separator preservation
omitted; no path in this development ends in a separator). -/
def posixNormalize (p : List Char) : List Char :=
  if p = [] then ".".toList
  else
    let isAbs := p.head? = some '/'
    let segs := normSegs (!isAbs) [] (splitSegs p)
    let body := List.intercalate "/".toList segs
    if isAbs then '/' :: body
    else if body = [] then ".".toList else body

/-- Models Node's `path.posix.join`. -/
def posixJoin (parts : List (List Char)) : List Char :=
  let joined := List.intercalate "/".toList (parts.filter (fun p => ¬ p.isEmpty))
  if joined = [] then ".".toList else posixNormalize joined

/-- Models Node's `path.posix.resolve`, with the process working directory
fixed at `/`: segments right of the last absolute argument, normalised. -/
def posixResolve (parts : List (List Char)) : List Char :=
  let relevant := parts.foldl
    (fun acc p => if p.head? = some '/' then [p] else acc ++ [p]) ["/".toList]
  let joined := List.intercalate "/".toList relevant
  let segs := normSegs false [] (splitSegs joined)
  '/' :: List.intercalate "/".toList segs

/-- Models Node's `path.posix.dirname`. -/
def posixDirname (p : List Char) : List Char :=
  if p = [] then ".".toList
  else
    let hasRoot := p.head? = some '/'
    let r := (p.drop 1).reverse
    let r2 := r.dropWhile (fun c => c = '/')
    let r3 := r2.dropWhile (fun c => c ≠ '/')
    if r3 = [] then (if hasRoot then "/".toList else ".".toList)
    else if hasRoot ∧ r3.length = 1 then "//".toList
    else p.take r3.length

/-- Length of the common segment prefix of two paths. -/
def commonLen : List (List Char) → List (List Char) → Nat
  | a :: as, b :: bs => if a = b then 1 + commonLen as bs else 0
  | _, _ => 0

/-- Models Node's `path.posix.relative` (working directory `/`): resolve
both paths, drop the common segment prefix, go up once per remaining
source segment, then down the remaining target segments. -/
def posixRelative (fromP toP : List Char) : List Char :=
  let f := posixResolve [fromP]
  let t := posixResolve [toP]
  if f = t then []
  else
    let fs := (splitSegs f).filter (fun sg => ¬ sg.isEmpty)
    let ts := (splitSegs t).filter (fun sg => ¬ sg.isEmpty)
    let common := commonLen fs ts
    let up := List.replicate (fs.length - common) "..".toList
    List.intercalate "/".toList (up ++ ts.drop common)

/-- src/index.ts line 236: the module identifier of a declaration file,
`options.name + filenameToMid(filename.slice(baseDir.length, -5))`. -/
def sourceModuleId (sep : Char) (name baseDir filename : List Char) : List Char :=
  name ++ filenameToMid sep (jsSlice filename (baseDir.length : Int) (-5))

/-- Whether the parent node is an export or import declaration
(`parent.kind === ts.SyntaxKind.ExportDeclaration || parent.kind ===
ts.SyntaxKind.ImportDeclaration`); the `parent = null` case cannot reach
this test in the source (only the root is visited with a null parent). -/
def isImportOrExportParent : Option Node → Bool
  | some par =>
    decide (par.kind = SyntaxKind.ExportDeclaration) ||
      decide (par.kind = SyntaxKind.ImportDeclaration)
  | none => false

/-- src/index.ts lines 257-277: the replacer `writeDeclaration` passes to
`processTree`, on a POSIX host: rewrite relative `require(...)` targets of
external module references, drop `declare` keywords, and rewrite relative
string-literal module specifiers of import/export declarations. -/
def declReplacer (moduleId : List Char) : Replacer := fun node parent =>
  if node.kind = SyntaxKind.ExternalModuleReference then
    let expression := node.expression
    if expression.text.head? = some '.' then
      some (" require(\x27".toList ++
        filenameToMid '/' (posixJoin [posixDirname moduleId, expression.text]) ++
        "\x27)".toList)
    else none
  else if node.kind = SyntaxKind.DeclareKeyword then some []
  else if node.kind = SyntaxKind.StringLiteral ∧ isImportOrExportParent parent = true then
    let text := node.text
    if text.head? = some '.' then
      some (" \x27".toList ++
        filenameToMid '/' (posixJoin [posixDirname moduleId, text]) ++
        "\x27".toList)
    else none
  else none

/-- One scanning step bound by fuel (the scan consumes at least one input
character per step, so `fuel = s.length` suffices; fuel only makes the
recursion structural). -/
def indentLinesGo (eol indent : List Char) : Nat → List Char → List Char
  | _, [] => []
  | 0, s => s
  | fuel + 1, c :: rest =>
    let s := c :: rest
    if (decide (eol ≠ []) && eol.isPrefixOf s && decide (s.drop eol.length ≠ []) &&
        !(eol.isPrefixOf (s.drop eol.length))) = true then
      eol ++ indent ++ indentLinesGo eol indent fuel (s.drop eol.length)
    else c :: indentLinesGo eol indent fuel rest

/-- src/index.ts lines 102 and 279: the global replacement of
`nonEmptyLineStart = new RegExp(eol + '(?!' + eol + '|$)', 'g')` by
`'$&' + indent`: every occurrence of `eol` that is not followed by
another `eol` and not at the end of the string is replaced by itself plus
one `indent`; the scan resumes after each match. -/
def indentLines (eol indent s : List Char) : List Char :=
  indentLinesGo eol indent s.length s

/-- A `/// <reference path="..." />` line followed by `eol`. -/
def refDirective (path eol : List Char) : List Char :=
  "/// <reference path=\"".toList ++ path ++ "\" />".toList ++ eol

/-- The pieces of `generate`'s closure that `writeDeclaration` reads:
the resolved options and the auxiliary output path (if any).  The host is
modelled as POSIX (`pathUtil.sep = '/'`, `pathUtil = path.posix`). -/
structure Ctx where
  name : List Char
  baseDir : List Char
  eol : List Char
  indent : List Char
  outputRefPath : Option (List Char)

/-- The mutable buffers of `generate`: `outputString`, `outputRefString`
and `wroteToOutputRef`. -/
structure GenState where
  outputString : List Char
  outputRefString : List Char
  wroteToOutputRef : Bool
deriving DecidableEq

/-- The state at the top of the promise executor: both buffers empty, no
hoisted directive yet. -/
def emptyGenState : GenState := { outputString := [], outputRefString := [], wroteToOutputRef := false }

/-- Pointwise combination of two buffer states: concatenated buffers, and
the hoist flag of either.  Every state transformer of the run only appends
to the buffers and only raises the flag, so each is a homomorphism for
this operation (proved below). -/
def GenState.append (a b : GenState) : GenState :=
  { outputString := a.outputString ++ b.outputString,
    outputRefString := a.outputRefString ++ b.outputRefString,
    wroteToOutputRef := a.wroteToOutputRef || b.wroteToOutputRef }

/-- src/index.ts lines 240-253: the per-referenced-file body of the
hoisting loop of `writeDeclaration`: append a reference directive (with a
path made relative to the auxiliary file's directory) to the auxiliary
buffer, and set `wroteToOutputRef`. -/
def hoistStep (ctx : Ctx) (refPath filename : List Char) (st : GenState)
    (refPathFile : List Char) : GenState :=
  let refFullPath := posixResolve
    [posixDirname (posixResolve [ctx.baseDir, filename]), refPathFile]
  let refRelPath := filenameToMid '/' (posixRelative (posixDirname refPath) refFullPath)
  { st with
    outputRefString := st.outputRefString ++ refDirective refRelPath ctx.eol,
    wroteToOutputRef := true }

/-- src/index.ts lines 234-285 continued: `writeDeclaration`. -/
def writeDeclaration (ctx : Ctx) (st : GenState) (declarationFile : SourceFile) : GenState :=
  let filename := declarationFile.fileName
  let moduleId := sourceModuleId '/' ctx.name ctx.baseDir filename
  if declarationFile.externalModuleIndicator then
    let st :=
      match ctx.outputRefPath with
      | some refPath =>
        declarationFile.referencedFiles.foldl (hoistStep ctx refPath filename) st
      | none => st
    let st := { st with outputString := st.outputString ++
      "declare module \x27".toList ++ moduleId ++ "\x27 \x7b".toList ++ ctx.eol ++ ctx.indent }
    let content := processTree declarationFile (declReplacer moduleId)
    { st with outputString := st.outputString ++
      indentLines ctx.eol ctx.indent content ++ ctx.eol ++ "\x7d".toList ++ ctx.eol }
  else
    { st with outputString := st.outputString ++ declarationFile.text }

/-- A compiler diagnostic as consumed by `getError`: file name, the
(line, character) pair `getLineAndCharacterOfPosition` yields for its
start, the numeric code, and the message text. -/
structure Diagnostic where
  fileName : List Char
  line : Nat
  character : Nat
  code : Nat
  messageText : List Char

def natStr (n : Nat) : List Char := (Nat.repr n).toList

/-- src/index.ts lines 38-52: the aggregated `EmitterError` message built
by `getError(diagnostics)`. -/
def getErrorMessage (diagnostics : List Diagnostic) : List Char :=
  diagnostics.foldl
    (fun message d =>
      message ++ "\n".toList ++ d.fileName ++ "(".toList ++ natStr (d.line + 1) ++
        ",".toList ++ natStr (d.character + 1) ++ "): error TS".toList ++ natStr d.code ++
        ": ".toList ++ d.messageText)
    "Declaration generation failed".toList

/-- The two rejection kinds of `generate`: an `EmitterError` built from
diagnostics, or a file-system error from `fs.unlink`. -/
inductive GenError where
  | emitterError (message : List Char)
  | fsError (message : List Char)
deriving DecidableEq

/-- One compiler-enumerated source file, together with the behaviour of
the black-box compiler service on it: the result of `program.emit`
(`emitSkipped`, its diagnostics, and the already-parsed declaration
outputs handed to the `writeFile` callback, in order) and the three
per-unit diagnostic queries. -/
structure SourceUnit where
  file : SourceFile
  emitSkipped : Bool
  emitDiagnostics : List Diagnostic
  emitOutputs : List SourceFile
  semanticDiagnostics : List Diagnostic
  syntacticDiagnostics : List Diagnostic
  declarationDiagnostics : List Diagnostic

/-- The recognized options of `generate` (src/index.ts lines 10-22);
`none` models a JS `undefined` field. -/
structure Options where
  baseDir : List Char
  files : List (List Char)
  excludes : Option (List (List Char))
  externs : Option (List (List Char))
  eol : Option (List Char)
  includes : Option (List (List Char))
  indent : Option (List Char)
  main : Option (List Char)
  name : List Char
  out : List Char
  target : Option Nat

/-- src/index.ts line 101: `var eol = options.eol || os.EOL` - any falsy
`eol` (an absent field or the empty string) is replaced by the platform
default. -/
def resolveEol (eol : Option (List Char)) (osEOL : List Char) : List Char :=
  match eol with
  | some e => if e = [] then osEOL else e
  | none => osEOL

/-- src/index.ts line 103: `options.indent === undefined ? '\t' :
options.indent` - only an absent indent receives the one-tab default; an
empty string is kept as-is. -/
def resolveIndent (indent : Option (List Char)) : List Char :=
  match indent with
  | some i => i
  | none => ['\t']

/-- src/index.ts lines 125-128: the auxiliary output path, present exactly
when `options.out` ends in `.d.ts`; the `.d.ts` suffix is replaced by
`.ref.d.ts`. -/
def mkOutputRefPath (out : List Char) : Option (List Char) :=
  if jsSliceFrom out (-5) = ".d.ts".toList then
    some (jsSlice out 0 (-5) ++ ".ref.d.ts".toList)
  else none

/-- The resolved context of a run (src/index.ts lines 100-128), on a POSIX
host with working directory `/`. -/
def mkCtx (opts : Options) (osEOL : List Char) : Ctx :=
  { name := opts.name,
    baseDir := posixResolve [opts.baseDir],
    eol := resolveEol opts.eol osEOL,
    indent := resolveIndent opts.indent,
    outputRefPath := mkOutputRefPath opts.out }

/-- src/index.ts lines 112-115: the exclude keys,
`filenameToMid(pathUtil.resolve(baseDir, filename))` per exclude. -/
def excludesKeys (excludes : Option (List (List Char))) (baseDir : List Char) :
    List (List Char) :=
  match excludes with
  | some excludes => excludes.map (fun f => filenameToMid '/' (posixResolve [baseDir, f]))
  | none => []

/-- The `filename.slice(-5) === '.d.ts'` test. -/
def endsDts (s : List Char) : Bool := jsSliceFrom s (-5) = ".d.ts".toList

/-- src/index.ts lines 133-140: the `writeFile` callback - non-declaration
emitter outputs are ignored, declaration outputs are written (the source
parses the emitted text with `ts.createSourceFile`; here the emitted
output arrives already parsed). -/
def writeFileCb (ctx : Ctx) (st : GenState) (out : SourceFile) : GenState :=
  if endsDts out.fileName then writeDeclaration ctx st out else st

/-- src/index.ts lines 155-185: the body of the `some` callback for one
source file: skip files not under `baseDir` or excluded; write `.d.ts`
files directly; otherwise emit (running `writeFile` on each output) and
fail on a skipped emission or any emit diagnostic. -/
def processUnit (ctx : Ctx) (excl : List (List Char)) (st : GenState) (u : SourceUnit) :
    GenState × Option GenError :=
  if ctx.baseDir.isPrefixOf (posixNormalize u.file.fileName) = false then (st, none)
  else if excl.contains (filenameToMid '/' (posixNormalize u.file.fileName)) then (st, none)
  else if endsDts u.file.fileName then (writeDeclaration ctx st u.file, none)
  else
    let st := u.emitOutputs.foldl (writeFileCb ctx) st
    if u.emitSkipped || !u.emitDiagnostics.isEmpty then
      (st, some (GenError.emitterError (getErrorMessage
        (u.emitDiagnostics ++ u.semanticDiagnostics ++ u.syntacticDiagnostics ++
          u.declarationDiagnostics))))
    else (st, none)

/-- src/index.ts line 155: `program.getSourceFiles().some(...)` iterates
in order and stops at the first callback that returns true - that is, at
the first failing unit; the returned error is the rejection raised there. -/
def processUnits (ctx : Ctx) (excl : List (List Char)) :
    List SourceUnit → GenState → GenState × Option GenError
  | [], st => (st, none)
  | u :: us, st =>
    match processUnit ctx excl st u with
    | (st', some e) => (st', some e)
    | (st', none) => processUnits ctx excl us st'

/-- src/index.ts lines 148-153: the extern reference directives appended
to the (still empty) output buffer before any unit is processed. -/
def externsText (externs : Option (List (List Char))) (eol : List Char) : List Char :=
  match externs with
  | some externs => externs.foldl (fun acc path => acc ++ refDirective path eol) []
  | none => []

/-- src/index.ts lines 188-191: the alias block appended when
`options.main` is truthy: the package name re-exports the `options.main`
specifier verbatim. -/
def mainAliasBlock (name main eol indent : List Char) : List Char :=
  "declare module \x27".toList ++ name ++ "\x27 \x7b".toList ++ eol ++ indent ++
    "import main = require(\x27".toList ++ main ++ "\x27);".toList ++ eol ++ indent ++
    "export = main;".toList ++ eol ++ "\x7d".toList ++ eol

/-- JS truthiness of `options.main` (absent or empty is falsy). -/
def mainRequested (main : Option (List Char)) : Bool :=
  match main with
  | some m => !m.isEmpty
  | none => false

/-- src/index.ts lines 187-197: after the unit loop, append the alias
block if requested, then prepend the auxiliary-file reference directive
to the whole buffer if anything was hoisted (`outputRefPath` is only read
here when the flag is set, hence the harmless default). -/
def finalOutputString (opts : Options) (ctx : Ctx) (st : GenState) : List Char :=
  let withMain :=
    if mainRequested opts.main then
      st.outputString ++ mainAliasBlock opts.name ((opts.main).getD []) ctx.eol ctx.indent
    else st.outputString
  if st.wroteToOutputRef then
    refDirective ((ctx.outputRefPath).getD []) ctx.eol ++ withMain
  else withMain

/-- The observable outcome of a `generate` run: how the promise settles,
the bytes the main output stream writes before it is ended, and whether
and with which content the auxiliary file remains afterwards. -/
structure GenOutcome where
  result : Except GenError Unit
  mainFileContent : List Char
  refFileCreated : Bool
  refFileExists : Bool
  refFileContent : List Char

/-- src/index.ts lines 99-232: `generate(options)`, modelled on a POSIX
host with working directory `/`.  `osEOL` is `os.EOL`; `units` are the
source files the compiler service enumerates, in order; `unlinkError` is
the outcome of the `fs.unlink` call on the empty auxiliary file (`none` =
success), an environment input.  The promise settles with the first
`reject`/`resolve` call: a unit failure rejects first; otherwise an
unlink failure rejects; otherwise the close of the main stream resolves.
`output.write(outputString)` (line 199) runs even after a unit failure,
so the main file always receives the assembled buffer.
First, the initial buffer state (externs already appended, lines 120-123
and 148-153). -/
def initState (opts : Options) (osEOL : List Char) : GenState :=
  { outputString := externsText opts.externs (resolveEol opts.eol osEOL),
    outputRefString := [],
    wroteToOutputRef := false }

/-- The exclude keys of a run. -/
def runExcl (opts : Options) (osEOL : List Char) : List (List Char) :=
  excludesKeys opts.excludes (mkCtx opts osEOL).baseDir

/-- The state and error after the unit loop of a run. -/
def runUnits (opts : Options) (osEOL : List Char) (units : List SourceUnit) :
    GenState × Option GenError :=
  processUnits (mkCtx opts osEOL) (runExcl opts osEOL) units (initState opts osEOL)

/-- The buffer contributions of the unit loop alone (starting from empty
buffers). -/
def unitsDelta (opts : Options) (osEOL : List Char) (units : List SourceUnit) : GenState :=
  (processUnits (mkCtx opts osEOL) (runExcl opts osEOL) units emptyGenState).1

def generate (opts : Options) (osEOL : List Char) (units : List SourceUnit)
    (unlinkError : Option (List Char)) : GenOutcome :=
  let ctx := mkCtx opts osEOL
  let res := runUnits opts osEOL units
  let st := res.1
  let err := res.2
  let result : Except GenError Unit :=
    match err with
    | some e => Except.error e
    | none =>
      match ctx.outputRefPath with
      | some _ =>
        if st.wroteToOutputRef then Except.ok ()
        else
          match unlinkError with
          | some ue => Except.error (GenError.fsError ue)
          | none => Except.ok ()
      | none => Except.ok ()
  { result := result,
    mainFileContent := finalOutputString opts ctx st,
    refFileCreated := (ctx.outputRefPath).isSome,
    refFileExists := (ctx.outputRefPath).isSome &&
      (st.wroteToOutputRef || unlinkError.isSome),
    refFileContent := if st.wroteToOutputRef then st.outputRefString else [] }

/-- A tiny concrete well-formed source unit used as witness input: the text
`var x;` with a source-file node containing one statement node. -/
def unitTiny : SourceFile :=
  { fileName := "/base/a.d.ts".toList
    text := "var x;".toList
    root := Node.mk 0 6 SyntaxKind.SourceFileKind []
      (.cons (Node.mk 0 6 (SyntaxKind.other 200) [] .nil) .nil)
    externalModuleIndicator := false
    referencedFiles := [] }

def exTextB : List Char := "import a = require(\x27./a\x27);\nexport = a;\n".toList

/-- The parse tree of `exTextB` as the TypeScript compiler produces it
(positions include leading trivia): an import-equals declaration whose
module reference spans the text from the `=` sign to the closing
parenthesis and holds the string literal `./a`, then an export
assignment, then the end-of-file token. -/
def exTreeB : Node :=
  Node.mk 0 39 SyntaxKind.SourceFileKind []
    (.cons (Node.mk 0 26 SyntaxKind.ImportEqualsDeclaration []
        (.cons (Node.mk 6 8 SyntaxKind.Identifier "a".toList .nil)
          (.cons (Node.mk 10 25 SyntaxKind.ExternalModuleReference []
              (.cons (Node.mk 19 24 SyntaxKind.StringLiteral "./a".toList .nil) .nil))
            .nil)))
      (.cons (Node.mk 26 38 SyntaxKind.ExportAssignment []
          (.cons (Node.mk 35 37 SyntaxKind.Identifier "a".toList .nil) .nil))
        (.cons (Node.mk 38 39 SyntaxKind.EndOfFileToken [] .nil) .nil)))

/-- The unit `b` of the end-to-end example: an external module importing
`./a`. -/
def exUnitB : SourceFile :=
  { fileName := "/base/b.d.ts".toList,
    text := exTextB,
    root := exTreeB,
    externalModuleIndicator := true,
    referencedFiles := [] }

/-- A concrete resolved context with package name `pkg`. -/
def exCtx : Ctx :=
  { name := "pkg".toList, baseDir := "/base".toList, eol := "\n".toList,
    indent := "\t".toList, outputRefPath := some "/out/o.ref.d.ts".toList }

/-- A trivial source-file node with no children. -/
def trivRoot (len : Nat) : Node := Node.mk 0 len SyntaxKind.SourceFileKind [] .nil

/-- A global (non-module) declaration file under `/base`, processed
without emitting. -/
def unitA : SourceUnit :=
  { file := { fileName := "/base/a.d.ts".toList,
              text := "declare var x: number;\n".toList,
              root := trivRoot 23,
              externalModuleIndicator := false,
              referencedFiles := [] },
    emitSkipped := false, emitDiagnostics := [], emitOutputs := [],
    semanticDiagnostics := [], syntacticDiagnostics := [], declarationDiagnostics := [] }

/-- A unit whose emission is skipped: processing it fails. -/
def unitFail : SourceUnit :=
  { file := { fileName := "/base/c.ts".toList,
              text := "var y = 1;\n".toList,
              root := trivRoot 11,
              externalModuleIndicator := false,
              referencedFiles := [] },
    emitSkipped := true, emitDiagnostics := [], emitOutputs := [],
    semanticDiagnostics := [], syntacticDiagnostics := [], declarationDiagnostics := [] }

/-- An external-module declaration file with one referenced file, so that
processing it hoists one directive. -/
def unitRef : SourceUnit :=
  { file := { fileName := "/base/b.d.ts".toList,
              text := "export declare var z: number;\n".toList,
              root := trivRoot 30,
              externalModuleIndicator := true,
              referencedFiles := ["./x.d.ts".toList] },
    emitSkipped := false, emitDiagnostics := [], emitOutputs := [],
    semanticDiagnostics := [], syntacticDiagnostics := [], declarationDiagnostics := [] }

/-- A minimal option set: base `/base`, output `/out/o.d.ts`. -/
def opts1 : Options :=
  { baseDir := "/base".toList, files := [], excludes := none, externs := none,
    eol := some "\n".toList, includes := none, indent := none, main := none,
    name := "pkg".toList, out := "/out/o.d.ts".toList, target := none }

/-- Like `opts1` with two externs. -/
def opts7 : Options :=
  { baseDir := "/base".toList, files := [], excludes := none,
    externs := some ["x.d.ts".toList, "y.d.ts".toList],
    eol := some "\n".toList, includes := none, indent := none, main := none,
    name := "pkg".toList, out := "/out/o.d.ts".toList, target := none }

/-- Like `opts1` with a main-module alias `./b`. -/
def opts6 : Options :=
  { baseDir := "/base".toList, files := [], excludes := none, externs := none,
    eol := some "\n".toList, includes := none, indent := none,
    main := some "./b".toList,
    name := "pkg".toList, out := "/out/o.d.ts".toList, target := none }

/-- The buffers-and-flag invariant behind C8: the hoist flag is set
exactly when the auxiliary buffer is non-empty. -/
def StInv (st : GenState) : Prop :=
  st.wroteToOutputRef = true ↔ st.outputRefString ≠ []


theorem renderOutL_append (text : List Char) (l₁ l₂ : List Seg) :
    renderOutL text (l₁ ++ l₂) = renderOutL text l₁ ++ renderOutL text l₂ := by
  induction l₁ with
  | nil => rfl
  | cons s l ih => simp [renderOutL, ih]

theorem renderOrigL_append (text : List Char) (l₁ l₂ : List Seg) :
    renderOrigL text (l₁ ++ l₂) = renderOrigL text l₁ ++ renderOrigL text l₂ := by
  induction l₁ with
  | nil => rfl
  | cons s l ih => simp [renderOrigL, ih]

theorem sliceStr_append (s : List Char) (a m b : Nat) (h1 : a ≤ m) (h2 : m ≤ b) :
    sliceStr s a m ++ sliceStr s m b = sliceStr s a b := by
  unfold sliceStr
  have hd : s.drop m = (s.drop a).drop (m - a) := by
    rw [List.drop_drop]
    congr 1
    omega
  rw [hd]
  rw [← List.take_add]
  congr 1
  omega

theorem chained_le (l : List Seg) : ∀ a b, Chained a b l → a ≤ b := by
  induction l with
  | nil => intro a b h; exact Nat.le_of_eq h
  | cons s l ih =>
    intro a b h
    obtain ⟨h1, h2, h3⟩ := h
    have := ih _ _ h3
    omega

theorem chained_append (l₁ l₂ : List Seg) : ∀ a m b,
    Chained a m l₁ → Chained m b l₂ → Chained a b (l₁ ++ l₂) := by
  induction l₁ with
  | nil => intro a m b h1 h2; cases h1; simpa using h2
  | cons s l ih =>
    intro a m b h1 h2
    obtain ⟨ha, hb, hc⟩ := h1
    exact ⟨ha, hb, ih _ _ _ hc h2⟩

theorem renderOrigL_of_chained (text : List Char) (l : List Seg) : ∀ a b,
    Chained a b l → renderOrigL text l = sliceStr text a b := by
  induction l with
  | nil =>
    intro a b h
    cases h
    simp [renderOrigL, sliceStr]
  | cons s l ih =>
    intro a b h
    obtain ⟨h1, h2, h3⟩ := h
    have hle := chained_le l _ _ h3
    have : renderOrig text s = sliceStr text a (segEnd s) := by
      cases s with
      | keep x y => simp [renderOrig, segStart, segEnd] at h1 ⊢; rw [h1]
      | subst x y s2 => simp [renderOrig, segStart, segEnd] at h1 ⊢; rw [h1]
    rw [renderOrigL, this, ih _ _ h3, sliceStr_append text a (segEnd s) b (h1 ▸ h2) hle]

theorem sizeOf_node_pos (n : Node) : 0 < sizeOf n := by
  cases n with
  | mk p e k t cs => simp_arith

/-- Mutual induction principle for `Node` and `NodeList`, used for all
traversal lemmas below. -/
theorem node_mutual_ind {P : Node → Prop} {Q : NodeList → Prop}
    (hnode : ∀ p e k t cs, Q cs → P (Node.mk p e k t cs))
    (hnil : Q .nil)
    (hcons : ∀ c cs, P c → Q cs → Q (.cons c cs)) :
    (∀ n, P n) ∧ (∀ cs, Q cs) := by
  have key : ∀ b : Nat, (∀ n, sizeOf n ≤ b → P n) ∧ (∀ cs, sizeOf cs ≤ b → Q cs) := by
    intro b
    induction b with
    | zero =>
      constructor
      · intro n hn
        exact absurd hn (by have := sizeOf_node_pos n; omega)
      · intro cs hcs
        cases cs with
        | nil => exact absurd hcs (by simp_arith)
        | cons c cs' => exact absurd hcs (by simp_arith)
    | succ b ih =>
      constructor
      · intro n hn
        cases n with
        | mk p e k t cs =>
          apply hnode
          apply ih.2
          simp_arith at hn
          omega
      · intro cs hcs
        cases cs with
        | nil => exact hnil
        | cons c cs' =>
          simp_arith at hcs
          exact hcons c cs' (ih.1 c (by omega)) (ih.2 cs' (by omega))
  exact ⟨fun n => (key (sizeOf n)).1 n (Nat.le_refl _),
    fun cs => (key (sizeOf cs)).2 cs (Nat.le_refl _)⟩

/-- The emitted code of `visit` is exactly the rendering of the segment
decomposition, appended to the incoming accumulator, and the final cursors
agree; likewise for `visitChildren` and `segsL`. -/
theorem visit_renders_segs (text : List Char) (r : Replacer) :
    (∀ n : Node, ∀ parent code cursor,
      visit text r parent n (code, cursor) =
        (code ++ renderOutL text (segsN r parent n cursor).1, (segsN r parent n cursor).2)) ∧
    (∀ cs : NodeList, ∀ parent code cursor,
      visitChildren text r parent cs (code, cursor) =
        (code ++ renderOutL text (segsL r parent cs cursor).1, (segsL r parent cs cursor).2)) := by
  refine node_mutual_ind ?_ ?_ ?_
  · intro p e k t cs hQ parent code cursor
    simp only [visit, segsN]
    cases hr : r (Node.mk p e k t cs) parent with
    | some rep => simp [renderOutL, renderOut]
    | none =>
      rw [hQ]
      simp [renderOutL, renderOut]
  · intro parent code cursor
    simp [visitChildren, segsL, renderOutL]
  · intro c cs hP hQ parent code cursor
    simp only [visitChildren, segsL]
    rw [hP, hQ]
    simp [renderOutL_append]

theorem processTree_eq_segsAll (sf : SourceFile) (r : Replacer) :
    processTree sf r = renderOutL sf.text (segsAll sf r) := by
  rw [processTree, segsAll]
  rw [(visit_renders_segs sf.text r).1]
  simp [renderOutL_append, renderOutL, renderOut]

theorem wfNb_iff (hi : Nat) (n : Node) :
    wfNb hi n = true ↔
      n.pos ≤ n.endP ∧ n.endP ≤ hi ∧ wfLb n.pos n.endP n.children = true := by
  cases n with
  | mk p e k t cs =>
    rw [wfNb]
    simp [Node.pos, Node.endP, Node.children]
    tauto

theorem wfNb_bounds {hi : Nat} {n : Node} (h : wfNb hi n = true) :
    n.pos ≤ n.endP ∧ n.endP ≤ hi := by
  have h2 := (wfNb_iff hi n).mp h
  exact ⟨h2.1, h2.2.1⟩

/-- Under well-formedness of the tree, the segment decomposition tiles the
interval from the starting cursor to the final cursor, and the final cursor
stays within the node's span (for forests: within `hi`). -/
theorem segs_chained (r : Replacer) :
    (∀ n : Node, ∀ parent cursor hi, wfNb hi n = true → cursor ≤ n.pos →
      Chained cursor (segsN r parent n cursor).2 (segsN r parent n cursor).1 ∧
        n.pos ≤ (segsN r parent n cursor).2 ∧ (segsN r parent n cursor).2 ≤ n.endP) ∧
    (∀ cs : NodeList, ∀ parent cursor lo hi, wfLb lo hi cs = true →
      cursor ≤ lo → cursor ≤ hi →
      Chained cursor (segsL r parent cs cursor).2 (segsL r parent cs cursor).1 ∧
        cursor ≤ (segsL r parent cs cursor).2 ∧ (segsL r parent cs cursor).2 ≤ hi) := by
  refine node_mutual_ind ?_ ?_ ?_
  · intro p e k t cs hQ parent cursor hi hw hc
    obtain ⟨hpe, hehi, hwl⟩ := (wfNb_iff hi _).mp hw
    simp only [Node.pos, Node.endP, Node.children] at hpe hehi hwl hc ⊢
    simp only [segsN]
    cases hr : r (Node.mk p e k t cs) parent with
    | some rep =>
      exact ⟨⟨rfl, hc, rfl, hpe, rfl⟩, hpe, Nat.le_refl _⟩
    | none =>
      have h := hQ (some (Node.mk p e k t cs)) p p e hwl (Nat.le_refl _) hpe
      exact ⟨⟨rfl, hc, h.1⟩, h.2.1, h.2.2⟩
  · intro parent cursor lo hi hw h1 h2
    exact ⟨rfl, Nat.le_refl _, h2⟩
  · intro c cs hP hQ parent cursor lo hi hw h1 h2
    rw [wfLb] at hw
    simp only [Bool.and_eq_true, decide_eq_true_eq] at hw
    obtain ⟨⟨hlo, hwc⟩, hwl⟩ := hw
    have hb := wfNb_bounds hwc
    have hn := hP parent cursor hi hwc (Nat.le_trans h1 hlo)
    have hl := hQ parent (segsN r parent c cursor).2 c.endP hi hwl
      hn.2.2 (Nat.le_trans hn.2.2 hb.2)
    simp only [segsL]
    refine ⟨chained_append _ _ _ _ _ hn.1 hl.1, ?_, hl.2.2⟩
    exact Nat.le_trans (Nat.le_trans (Nat.le_trans h1 hlo) hn.2.1) hl.2.1

theorem self_mem_allNodes (n : Node) : n ∈ allNodes n := by
  cases n with
  | mk p e k t cs => simp [allNodes]

theorem mem_allNodes_of_mem_children (p e : Nat) (k : SyntaxKind) (t : List Char)
    (cs : NodeList) : ∀ m ∈ allNodesL cs, m ∈ allNodes (Node.mk p e k t cs) := by
  intro m hm
  simp [allNodes]
  exact Or.inr hm

theorem mem_allNodesL_cons_left (c : Node) (cs : NodeList) :
    ∀ m ∈ allNodes c, m ∈ allNodesL (.cons c cs) := by
  intro m hm
  simp [allNodesL]
  exact Or.inl hm

theorem mem_allNodesL_cons_right (c : Node) (cs : NodeList) :
    ∀ m ∈ allNodesL cs, m ∈ allNodesL (.cons c cs) := by
  intro m hm
  simp [allNodesL]
  exact Or.inr hm

/-- If the replacer returns null on every node of the tree, the segment
decomposition consists of untouched spans only. -/
theorem segs_keep_only (r : Replacer) :
    (∀ n : Node, ∀ parent cursor, (∀ m ∈ allNodes n, ∀ q, r m q = none) →
      ∀ sg ∈ (segsN r parent n cursor).1, ∃ a b, sg = Seg.keep a b) ∧
    (∀ cs : NodeList, ∀ parent cursor, (∀ m ∈ allNodesL cs, ∀ q, r m q = none) →
      ∀ sg ∈ (segsL r parent cs cursor).1, ∃ a b, sg = Seg.keep a b) := by
  refine node_mutual_ind ?_ ?_ ?_
  · intro p e k t cs hQ parent cursor h sg hsg
    have hr : r (Node.mk p e k t cs) parent = none := h _ (self_mem_allNodes _) parent
    simp only [segsN, hr] at hsg
    rcases List.mem_cons.mp hsg with h1 | h1
    · exact ⟨_, _, h1⟩
    · exact hQ (some (Node.mk p e k t cs)) p
        (fun m hm q => h m (mem_allNodes_of_mem_children p e k t cs m hm) q) sg h1
  · intro parent cursor h sg hsg
    simp [segsL] at hsg
  · intro c cs hP hQ parent cursor h sg hsg
    simp only [segsL] at hsg
    rcases List.mem_append.mp hsg with h1 | h1
    · exact hP parent cursor (fun m hm q => h m (mem_allNodesL_cons_left c cs m hm) q) sg h1
    · exact hQ parent _ (fun m hm q => h m (mem_allNodesL_cons_right c cs m hm) q) sg h1

theorem renderOutL_eq_renderOrigL (text : List Char) (l : List Seg)
    (h : ∀ sg ∈ l, ∃ a b, sg = Seg.keep a b) :
    renderOutL text l = renderOrigL text l := by
  induction l with
  | nil => rfl
  | cons sg l ih =>
    obtain ⟨a, b, rfl⟩ := h sg (List.mem_cons_self _ _)
    rw [renderOutL, renderOrigL, ih (fun s hs => h s (List.mem_cons_of_mem _ hs))]
    rfl

/-- Every replaced segment of the decomposition comes from a node of the
tree on which the replacer fired, with exactly that node's span. -/
theorem segs_subst_fired (r : Replacer) :
    (∀ n : Node, ∀ parent cursor a b s2, Seg.subst a b s2 ∈ (segsN r parent n cursor).1 →
      ∃ m q, m ∈ allNodes n ∧ m.pos = a ∧ m.endP = b ∧ r m q = some s2) ∧
    (∀ cs : NodeList, ∀ parent cursor a b s2, Seg.subst a b s2 ∈ (segsL r parent cs cursor).1 →
      ∃ m q, m ∈ allNodesL cs ∧ m.pos = a ∧ m.endP = b ∧ r m q = some s2) := by
  refine node_mutual_ind ?_ ?_ ?_
  · intro p e k t cs hQ parent cursor a b s2 hmem
    simp only [segsN] at hmem
    cases hr : r (Node.mk p e k t cs) parent with
    | some rep =>
      rw [hr] at hmem
      simp only [List.mem_cons, List.mem_singleton, List.not_mem_nil, or_false] at hmem
      rcases hmem with h1 | h1
      · exact absurd h1 (by simp)
      · refine ⟨Node.mk p e k t cs, parent, self_mem_allNodes _, ?_, ?_, ?_⟩
        · cases h1; rfl
        · cases h1; rfl
        · cases h1; rw [hr]
    | none =>
      rw [hr] at hmem
      simp only [List.mem_cons] at hmem
      rcases hmem with h1 | h1
      · exact absurd h1 (by simp)
      · obtain ⟨m, q, hm, hpos, hend, hfired⟩ := hQ (some (Node.mk p e k t cs)) p a b s2 h1
        exact ⟨m, q, mem_allNodes_of_mem_children p e k t cs m hm, hpos, hend, hfired⟩
  · intro parent cursor a b s2 hmem
    simp [segsL] at hmem
  · intro c cs hP hQ parent cursor a b s2 hmem
    simp only [segsL] at hmem
    rcases List.mem_append.mp hmem with h1 | h1
    · obtain ⟨m, q, hm, rest⟩ := hP parent cursor a b s2 h1
      exact ⟨m, q, mem_allNodesL_cons_left c cs m hm, rest⟩
    · obtain ⟨m, q, hm, rest⟩ := hQ parent _ a b s2 h1
      exact ⟨m, q, mem_allNodesL_cons_right c cs m hm, rest⟩

/-- Every replacer call made by the traversal is either the root call or a
call on a child of an earlier-called node on which no replacement fired:
no node below a fired node is ever visited. -/
theorem queried_structure (r : Replacer) :
    (∀ n : Node, ∀ parent m q, (m, q) ∈ queriedN r parent n →
      (m = n ∧ q = parent) ∨
        ∃ m' q', q = some m' ∧ m ∈ (Node.children m').toList ∧
          (m', q') ∈ queriedN r parent n ∧ r m' q' = none) ∧
    (∀ cs : NodeList, ∀ parent m q, (m, q) ∈ queriedL r parent cs →
      (m ∈ cs.toList ∧ q = parent) ∨
        ∃ m' q', q = some m' ∧ m ∈ (Node.children m').toList ∧
          (m', q') ∈ queriedL r parent cs ∧ r m' q' = none) := by
  refine node_mutual_ind ?_ ?_ ?_
  · intro p e k t cs hQ parent m q hmem
    simp only [queriedN] at hmem
    rcases List.mem_cons.mp hmem with h1 | h1
    · left
      exact ⟨congrArg Prod.fst h1, congrArg Prod.snd h1⟩
    · cases hr : r (Node.mk p e k t cs) parent with
      | some rep =>
        rw [hr] at h1
        simp at h1
      | none =>
        rw [hr] at h1
        rcases hQ (some (Node.mk p e k t cs)) m q h1 with ⟨hmc, rfl⟩ | ⟨m', q', rfl, hmc, hmem', hnone⟩
        · right
          refine ⟨Node.mk p e k t cs, parent, rfl, ?_, ?_, hr⟩
          · simpa [Node.children] using hmc
          · simp only [queriedN, hr]
            exact List.mem_cons_self _ _
        · right
          refine ⟨m', q', rfl, hmc, ?_, hnone⟩
          simp only [queriedN, hr]
          exact List.mem_cons_of_mem _ hmem'
  · intro parent m q hmem
    simp [queriedL] at hmem
  · intro c cs hP hQ parent m q hmem
    simp only [queriedL] at hmem
    rcases List.mem_append.mp hmem with h1 | h1
    · rcases hP parent m q h1 with ⟨rfl, rfl⟩ | ⟨m', q', rfl, hmc, hmem', hnone⟩
      · left
        exact ⟨by simp [NodeList.toList], rfl⟩
      · right
        refine ⟨m', q', rfl, hmc, ?_, hnone⟩
        simp only [queriedL]
        exact List.mem_append_left _ hmem'
    · rcases hQ parent m q h1 with ⟨hmc, rfl⟩ | ⟨m', q', rfl, hmc, hmem', hnone⟩
      · left
        refine ⟨?_, rfl⟩
        simp [NodeList.toList]
        exact Or.inr hmc
      · right
        refine ⟨m', q', rfl, hmc, ?_, hnone⟩
        simp only [queriedL]
        exact List.mem_append_right _ hmem'

/-- When the replacer fires on a node, the traversal of that node's subtree
makes exactly one replacer call: the node itself. -/
theorem queriedN_fired (r : Replacer) (n : Node) (parent : Option Node) (s : List Char)
    (h : r n parent = some s) : queriedN r parent n = [(n, parent)] := by
  cases n with
  | mk p e k t cs => simp [queriedN, h]

/-- Claim C2: for every source unit and every replacer function that
returns null for every node of that unit's tree, the output of the tree
rewriter equals the unit's original text exactly. -/
theorem claim_C2_identity (sf : SourceFile) (r : Replacer) (hwf : sf.WF = true)
    (hnone : ∀ n ∈ allNodes sf.root, ∀ q, r n q = none) :
    processTree sf r = sf.text := by
  have hwf' : wfNb sf.text.length sf.root = true := hwf
  rw [processTree_eq_segsAll]
  have hkeep : ∀ sg ∈ segsAll sf r, ∃ a b, sg = Seg.keep a b := by
    intro sg hsg
    simp only [segsAll] at hsg
    rcases List.mem_append.mp hsg with h1 | h1
    · exact (segs_keep_only r).1 sf.root none 0 hnone sg h1
    · simp only [List.mem_singleton] at h1
      exact ⟨_, _, h1⟩
  rw [renderOutL_eq_renderOrigL _ _ hkeep]
  have hch : Chained 0 sf.text.length (segsAll sf r) := by
    have h := (segs_chained r).1 sf.root none 0 sf.text.length hwf' (Nat.zero_le _)
    have hb := wfNb_bounds hwf'
    simp only [segsAll]
    apply chained_append _ _ _ _ _ h.1
    exact ⟨rfl, Nat.le_trans h.2.2 hb.2, rfl⟩
  rw [renderOrigL_of_chained _ _ _ _ hch]
  simp [sliceStr]

theorem claim_C2_identity_witness :
    processTree unitTiny (fun _ _ => none) = unitTiny.text :=
  claim_C2_identity unitTiny (fun _ _ => none) (by decide) (fun _ _ _ => rfl)

/-- Claim C3: the tree rewriter's output decomposes into the original
text's untouched spans, unchanged and in original order, interleaved with
exactly one replacement string per fired node at that node's span; the
spans tile the whole text contiguously; every replaced segment comes from
a node on which the replacer fired; a fired node's subtree contributes
exactly one replacer call (no descendant is separately visited); and every
visited node is the root or a child of a visited non-fired node. -/
theorem claim_C3_rewriter_contract (sf : SourceFile) (r : Replacer) (hwf : sf.WF = true) :
    processTree sf r = renderOutL sf.text (segsAll sf r) ∧
    Chained 0 sf.text.length (segsAll sf r) ∧
    renderOrigL sf.text (segsAll sf r) = sf.text ∧
    (∀ a b s, Seg.subst a b s ∈ segsAll sf r →
      ∃ m q, m ∈ allNodes sf.root ∧ m.pos = a ∧ m.endP = b ∧ r m q = some s) ∧
    (∀ n p s, r n p = some s → queriedN r p n = [(n, p)]) ∧
    (∀ m q, (m, q) ∈ queriedAll sf r →
      (m = sf.root ∧ q = none) ∨
        ∃ m' q', q = some m' ∧ m ∈ (Node.children m').toList ∧
          (m', q') ∈ queriedAll sf r ∧ r m' q' = none) := by
  have hwf' : wfNb sf.text.length sf.root = true := hwf
  have hch : Chained 0 sf.text.length (segsAll sf r) := by
    have h := (segs_chained r).1 sf.root none 0 sf.text.length hwf' (Nat.zero_le _)
    have hb := wfNb_bounds hwf'
    simp only [segsAll]
    apply chained_append _ _ _ _ _ h.1
    exact ⟨rfl, Nat.le_trans h.2.2 hb.2, rfl⟩
  refine ⟨processTree_eq_segsAll sf r, hch, ?_, ?_, ?_, ?_⟩
  · rw [renderOrigL_of_chained _ _ _ _ hch]
    simp [sliceStr]
  · intro a b s hmem
    simp only [segsAll] at hmem
    rcases List.mem_append.mp hmem with h1 | h1
    · exact (segs_subst_fired r).1 sf.root none 0 a b s h1
    · simp at h1
  · intro n p s h
    exact queriedN_fired r n p s h
  · intro m q hmem
    exact (queried_structure r).1 sf.root none m q hmem

/-- Witness for C3: the tiling property of the decomposition, at the
concrete unit `unitTiny` with a replacer that fires on the statement
node. -/
theorem claim_C3_rewriter_contract_witness :
    Chained 0 unitTiny.text.length
      (segsAll unitTiny (fun n _ => if n.kind = SyntaxKind.other 200 then some "let y;".toList else none)) :=
  (claim_C3_rewriter_contract unitTiny
    (fun n _ => if n.kind = SyntaxKind.other 200 then some "let y;".toList else none)
    (by decide)).2.1


theorem GenState.empty_append (a : GenState) : emptyGenState.append a = a := rfl

theorem GenState.append_empty (a : GenState) : a.append emptyGenState = a := by
  cases a
  simp [GenState.append, emptyGenState]

theorem GenState.append_assoc (a b c : GenState) :
    (a.append b).append c = a.append (b.append c) := by
  cases a; cases b; cases c
  simp [GenState.append, Bool.or_assoc]

/-- A fold of a step function that appends its contribution to the state
is itself an append of the fold from empty buffers. -/
theorem foldl_append_hom {α : Type} (f : GenState → α → GenState)
    (hf : ∀ st x, f st x = st.append (f emptyGenState x)) :
    ∀ (l : List α) (st : GenState), l.foldl f st = st.append (l.foldl f emptyGenState) := by
  intro l
  induction l with
  | nil => intro st; simpa using (GenState.append_empty st).symm
  | cons x xs ih =>
    intro st
    rw [List.foldl_cons, List.foldl_cons, ih, ih (f emptyGenState x), hf st x,
      GenState.append_assoc]

theorem hoistStep_hom (ctx : Ctx) (rp fn : List Char) :
    ∀ (st : GenState) (x : List Char),
      hoistStep ctx rp fn st x = st.append (hoistStep ctx rp fn emptyGenState x) := by
  intro st x
  cases st
  simp [hoistStep, GenState.append, emptyGenState]

theorem writeDeclaration_hom (ctx : Ctx) (st : GenState) (f : SourceFile) :
    writeDeclaration ctx st f = st.append (writeDeclaration ctx emptyGenState f) := by
  unfold writeDeclaration
  cases hext : f.externalModuleIndicator with
  | false =>
    cases st
    simp [GenState.append, emptyGenState]
  | true =>
    cases hrp : ctx.outputRefPath with
    | none =>
      cases st
      simp [GenState.append, emptyGenState]
    | some rp =>
      simp only
      rw [foldl_append_hom _ (hoistStep_hom ctx rp f.fileName),
        foldl_append_hom _ (hoistStep_hom ctx rp f.fileName) _ emptyGenState]
      cases st
      cases f.referencedFiles.foldl (hoistStep ctx rp f.fileName) emptyGenState
      simp [GenState.append, emptyGenState]

theorem writeFileCb_hom (ctx : Ctx) (st : GenState) (o : SourceFile) :
    writeFileCb ctx st o = st.append (writeFileCb ctx emptyGenState o) := by
  unfold writeFileCb
  cases endsDts o.fileName
  · simpa using (GenState.append_empty st).symm
  · exact writeDeclaration_hom ctx st o

theorem processUnit_hom (ctx : Ctx) (excl : List (List Char)) (st : GenState) (u : SourceUnit) :
    (processUnit ctx excl st u).1 = st.append (processUnit ctx excl emptyGenState u).1 ∧
    (processUnit ctx excl st u).2 = (processUnit ctx excl emptyGenState u).2 := by
  unfold processUnit
  split
  · exact ⟨(GenState.append_empty st).symm, rfl⟩
  · split
    · exact ⟨(GenState.append_empty st).symm, rfl⟩
    · split
      · exact ⟨writeDeclaration_hom ctx st u.file, rfl⟩
      · rw [foldl_append_hom _ (writeFileCb_hom ctx)]
        split
        · exact ⟨rfl, rfl⟩
        · exact ⟨rfl, rfl⟩

theorem processUnits_hom (ctx : Ctx) (excl : List (List Char)) (units : List SourceUnit) :
    ∀ st : GenState,
      (processUnits ctx excl units st).1 =
        st.append (processUnits ctx excl units emptyGenState).1 ∧
      (processUnits ctx excl units st).2 = (processUnits ctx excl units emptyGenState).2 := by
  induction units with
  | nil => intro st; exact ⟨(GenState.append_empty st).symm, rfl⟩
  | cons u us ih =>
    intro st
    simp only [processUnits]
    have h := processUnit_hom ctx excl st u
    cases hbase : processUnit ctx excl emptyGenState u with
    | mk st1 err =>
      rw [hbase] at h
      cases herr : err with
      | some e =>
        rw [herr] at h hbase
        have hcur : processUnit ctx excl st u = (st.append st1, some e) := by
          cases hc : processUnit ctx excl st u with
          | mk a b =>
            rw [hc] at h
            simp at h
            simp [h.1, h.2]
        rw [hcur]
        simp
      | none =>
        rw [herr] at h hbase
        have hcur : processUnit ctx excl st u = (st.append st1, none) := by
          cases hc : processUnit ctx excl st u with
          | mk a b =>
            rw [hc] at h
            simp at h
            simp [h.1, h.2]
        rw [hcur]
        simp only
        have h2 := ih (st.append st1)
        have h3 := ih st1
        refine ⟨?_, ?_⟩
        · rw [h2.1, h3.1, GenState.append_assoc]
        · rw [h2.2, h3.2]

/-- `Array.prototype.some` evaluated over an appended list: if the first
part already stops with an error, the second part is never processed. -/
theorem processUnits_split (ctx : Ctx) (excl : List (List Char)) (us vs : List SourceUnit) :
    ∀ st : GenState,
      processUnits ctx excl (us ++ vs) st =
        (match processUnits ctx excl us st with
         | (st1, some e) => (st1, some e)
         | (st1, none) => processUnits ctx excl vs st1) := by
  induction us with
  | nil => intro st; simp [processUnits]
  | cons u us' ih =>
    intro st
    simp only [List.cons_append, processUnits]
    cases hc : processUnit ctx excl st u with
    | mk st1 err =>
      cases err with
      | some e => simp
      | none => simpa using ih st1

theorem refDirective_ne_nil (p eol : List Char) : refDirective p eol ≠ [] := by
  have h0 : 0 < ("/// <reference path=\"".toList : List Char).length := by decide
  have h1 : 0 < (refDirective p eol).length := by
    unfold refDirective
    simp only [List.length_append]
    omega
  exact List.length_pos.mp h1

theorem StInv_setOutput (st : GenState) (o : List Char) (h : StInv st) :
    StInv { st with outputString := o } := by
  cases st
  simpa [StInv] using h

theorem stInv_foldl {α : Type} (f : GenState → α → GenState)
    (hf : ∀ st x, StInv st → StInv (f st x)) :
    ∀ (l : List α) (st : GenState), StInv st → StInv (l.foldl f st) := by
  intro l
  induction l with
  | nil => intro st h; simpa using h
  | cons x xs ih =>
    intro st h
    rw [List.foldl_cons]
    exact ih _ (hf st x h)

theorem stInv_hoistStep (ctx : Ctx) (rp fn : List Char) :
    ∀ (st : GenState) (x : List Char), StInv st → StInv (hoistStep ctx rp fn st x) := by
  intro st x h
  cases st with
  | mk o r w =>
    refine ⟨fun _ hnil => absurd (List.append_eq_nil.mp hnil).2 (refDirective_ne_nil _ _),
      fun _ => rfl⟩

theorem stInv_writeDeclaration (ctx : Ctx) (f : SourceFile) :
    ∀ st : GenState, StInv st → StInv (writeDeclaration ctx st f) := by
  intro st h
  unfold writeDeclaration
  cases hext : f.externalModuleIndicator with
  | false =>
    simp only [Bool.false_eq_true, if_false]
    exact StInv_setOutput st _ h
  | true =>
    simp only [if_true]
    cases hrp : ctx.outputRefPath with
    | none => exact StInv_setOutput _ _ (StInv_setOutput _ _ h)
    | some rp =>
      have h2 := stInv_foldl (hoistStep ctx rp f.fileName) (stInv_hoistStep ctx rp f.fileName)
        f.referencedFiles st h
      exact StInv_setOutput _ _ (StInv_setOutput _ _ h2)

theorem stInv_writeFileCb (ctx : Ctx) :
    ∀ (st : GenState) (o : SourceFile), StInv st → StInv (writeFileCb ctx st o) := by
  intro st o h
  unfold writeFileCb
  cases endsDts o.fileName
  · simpa using h
  · exact stInv_writeDeclaration ctx o st h

theorem stInv_processUnit (ctx : Ctx) (excl : List (List Char)) (st : GenState)
    (u : SourceUnit) (h : StInv st) : StInv (processUnit ctx excl st u).1 := by
  unfold processUnit
  split
  · exact h
  · split
    · exact h
    · split
      · exact stInv_writeDeclaration ctx u.file st h
      · have h2 := stInv_foldl (writeFileCb ctx) (stInv_writeFileCb ctx) u.emitOutputs st h
        split
        · exact h2
        · exact h2

theorem stInv_processUnits (ctx : Ctx) (excl : List (List Char)) (units : List SourceUnit) :
    ∀ st : GenState, StInv st → StInv (processUnits ctx excl units st).1 := by
  induction units with
  | nil => intro st h; exact h
  | cons u us ih =>
    intro st h
    simp only [processUnits]
    have h1 := stInv_processUnit ctx excl st u h
    cases hc : processUnit ctx excl st u with
    | mk st1 err =>
      rw [hc] at h1
      cases err with
      | some e => exact h1
      | none => exact ih st1 h1

/-- The assembled main-file content of a run: the auxiliary reference
directive first (only when something was hoisted), then the externs, then
the per-unit blocks in enumeration order, then the alias block (only when
`options.main` is truthy). -/
theorem generate_mainFileContent (opts : Options) (osEOL : List Char)
    (units : List SourceUnit) (ue : Option (List Char)) :
    (generate opts osEOL units ue).mainFileContent =
      (if (unitsDelta opts osEOL units).wroteToOutputRef then
        refDirective (((mkCtx opts osEOL).outputRefPath).getD []) (resolveEol opts.eol osEOL)
      else []) ++
      externsText opts.externs (resolveEol opts.eol osEOL) ++
      (unitsDelta opts osEOL units).outputString ++
      (if mainRequested opts.main then
        mainAliasBlock opts.name ((opts.main).getD []) (resolveEol opts.eol osEOL)
          (resolveIndent opts.indent)
      else []) := by
  have h1 : (runUnits opts osEOL units).1 =
      { outputString := externsText opts.externs (resolveEol opts.eol osEOL) ++
          (unitsDelta opts osEOL units).outputString,
        outputRefString := (unitsDelta opts osEOL units).outputRefString,
        wroteToOutputRef := (unitsDelta opts osEOL units).wroteToOutputRef } := by
    unfold runUnits unitsDelta
    rw [(processUnits_hom (mkCtx opts osEOL) (runExcl opts osEOL) units (initState opts osEOL)).1]
    cases hd : (processUnits (mkCtx opts osEOL) (runExcl opts osEOL) units emptyGenState).1
    simp [GenState.append, initState]
  show finalOutputString opts (mkCtx opts osEOL) (runUnits opts osEOL units).1 = _
  rw [h1]
  unfold finalOutputString
  have he : (mkCtx opts osEOL).eol = resolveEol opts.eol osEOL := rfl
  have hi : (mkCtx opts osEOL).indent = resolveIndent opts.indent := rfl
  rw [he, hi]
  cases hm : mainRequested opts.main
  · cases hw : (unitsDelta opts osEOL units).wroteToOutputRef
    · simp
    · simp [List.append_assoc]
  · cases hw : (unitsDelta opts osEOL units).wroteToOutputRef
    · simp [List.append_assoc]
    · simp [List.append_assoc]

theorem jsSlice_strip (baseDir rel suf : List Char) (h : 0 < suf.length) :
    jsSlice (baseDir ++ rel ++ suf) (baseDir.length : Int) (-(suf.length : Int)) = rel := by
  unfold jsSlice jsClamp
  have hlen : (baseDir ++ rel ++ suf).length = baseDir.length + rel.length + suf.length := by
    simp only [List.length_append]
  rw [hlen]
  rw [if_neg (by omega : ¬ ((baseDir.length : Int) < 0))]
  rw [if_pos (by omega : (-(suf.length : Int) < 0))]
  have h2 : min ((baseDir.length : Int)).toNat
      (baseDir.length + rel.length + suf.length) = baseDir.length := by
    omega
  have h3 : (max (((baseDir.length + rel.length + suf.length : Nat) : Int) +
      -(suf.length : Int)) 0).toNat = baseDir.length + rel.length := by
    omega
  rw [h2, h3]
  show List.take (baseDir.length + rel.length - baseDir.length)
    (List.drop baseDir.length (baseDir ++ rel ++ suf)) = rel
  have h4 : baseDir.length + rel.length - baseDir.length = rel.length := by omega
  rw [h4, List.append_assoc, List.drop_left]
  exact List.take_left rel suf

theorem hoist_outputString (ctx : Ctx) (rp fn : List Char) :
    ∀ (l : List (List Char)) (st : GenState),
      (l.foldl (hoistStep ctx rp fn) st).outputString = st.outputString := by
  intro l
  induction l with
  | nil => intro st; rfl
  | cons x xs ih =>
    intro st
    rw [List.foldl_cons, ih]
    rfl

theorem foldl_append_map {α : Type} (g : α → List Char) (l : List α) :
    ∀ a : List Char, l.foldl (fun acc p => acc ++ g p) a = a ++ (l.map g).flatten := by
  induction l with
  | nil => intro a; simp
  | cons x xs ih =>
    intro a
    rw [List.foldl_cons, ih]
    simp [List.append_assoc]

/-- Claim C1 (amended): if processing a unit fails, the run is rejected
with that unit's aggregated emitter error and the remaining units are
not processed (the whole outcome equals the run without them) - but the
output buffered so far, with the alias and reference-directive additions,
is still written to the main output file. -/
theorem claim_C1_failure_behaviour (opts : Options) (osEOL : List Char)
    (us vs : List SourceUnit) (ue : Option (List Char)) (st1 : GenState) (e : GenError)
    (h : runUnits opts osEOL us = (st1, some e)) :
    generate opts osEOL (us ++ vs) ue = generate opts osEOL us ue ∧
    (generate opts osEOL (us ++ vs) ue).result = Except.error e ∧
    (generate opts osEOL (us ++ vs) ue).mainFileContent =
      finalOutputString opts (mkCtx opts osEOL) st1 := by
  have hsplit : runUnits opts osEOL (us ++ vs) = (st1, some e) := by
    unfold runUnits at h ⊢
    rw [processUnits_split, h]
  refine ⟨?_, ?_, ?_⟩
  · unfold generate
    rw [hsplit, h]
  · unfold generate
    rw [hsplit]
  · unfold generate
    rw [hsplit]

/-- Counterexample to claim C1 as stated: a run whose second unit fails is
rejected, yet the main output file still receives the first unit's text -
more than zero bytes of buffered output reach persistent storage. -/
theorem claim_C1_counterexample :
    (generate opts1 "\n".toList [unitA, unitFail] none).result =
      Except.error (GenError.emitterError "Declaration generation failed".toList) ∧
    (generate opts1 "\n".toList [unitA, unitFail] none).mainFileContent ≠ [] :=
  ⟨rfl, by decide⟩

/-- Witness for C1 (amended), at a concrete failing run with a trailing
unprocessed unit. -/
theorem claim_C1_failure_behaviour_witness :
    (generate opts1 "\n".toList ([unitA, unitFail] ++ [unitRef]) none).result =
      Except.error (GenError.emitterError "Declaration generation failed".toList) :=
  (claim_C1_failure_behaviour opts1 "\n".toList [unitA, unitFail] [unitRef] none
    ⟨"declare var x: number;\n".toList, [], false⟩
    (GenError.emitterError "Declaration generation failed".toList) (by decide)).2.1

/-- Claim C4: the module identifier strips the base-directory prefix and
the `.d.ts` suffix, normalises separators to forward slash, and prefixes
the package name; in particular `/pkg/src` + `/pkg/src/a/b.d.ts` + `lib`
resolves to `lib/a/b`. -/
theorem claim_C4_module_identifier :
    (∀ (sep : Char) (name baseDir rel : List Char),
      sourceModuleId sep name baseDir (baseDir ++ rel ++ ".d.ts".toList) =
        name ++ filenameToMid sep rel) ∧
    sourceModuleId '/' "lib".toList "/pkg/src".toList "/pkg/src/a/b.d.ts".toList =
      "lib/a/b".toList := by
  constructor
  · intro sep name baseDir rel
    unfold sourceModuleId
    have h5 : jsSlice (baseDir ++ rel ++ ".d.ts".toList) (baseDir.length : Int) (-5) = rel := by
      rw [show (-5 : Int) = -(((".d.ts".toList : List Char).length : Nat) : Int) from by decide]
      exact jsSlice_strip baseDir rel (".d.ts".toList) (by decide)
    rw [h5]
  · decide

set_option maxRecDepth 8192 in
/-- Claim C5: a non-module unit's raw text is appended unchanged; an
external-module unit becomes a `declare module \x27<id>\x27` block whose body
is the rewritten, indented tree output; concretely, unit `b` importing
`./a` under package `pkg` yields the block `declare module \x27pkg/b\x27` with
the specifier rewritten to `pkg/a`. -/
theorem claim_C5_declaration_writer :
    (∀ (ctx : Ctx) (st : GenState) (f : SourceFile), f.externalModuleIndicator = false →
      writeDeclaration ctx st f = { st with outputString := st.outputString ++ f.text }) ∧
    (∀ (ctx : Ctx) (st : GenState) (f : SourceFile), f.externalModuleIndicator = true →
      (writeDeclaration ctx st f).outputString =
        st.outputString ++ "declare module \x27".toList ++
          sourceModuleId '/' ctx.name ctx.baseDir f.fileName ++ "\x27 \x7b".toList ++
          ctx.eol ++ ctx.indent ++
          indentLines ctx.eol ctx.indent
            (processTree f (declReplacer (sourceModuleId '/' ctx.name ctx.baseDir f.fileName))) ++
          ctx.eol ++ "\x7d".toList ++ ctx.eol) ∧
    (writeDeclaration exCtx emptyGenState exUnitB).outputString =
      "declare module \x27pkg/b\x27 \x7b\n\timport a = require(\x27pkg/a\x27);\n\texport = a;\n\n\x7d\n".toList := by
  refine ⟨?_, ?_, by decide⟩
  · intro ctx st f hext
    unfold writeDeclaration
    rw [hext]
    simp
  · intro ctx st f hext
    unfold writeDeclaration
    rw [hext]
    simp only [if_true]
    cases hrp : ctx.outputRefPath with
    | none => simp [List.append_assoc]
    | some rp =>
      have hh := hoist_outputString ctx rp f.fileName f.referencedFiles st
      simp [hh, List.append_assoc]

/-- Witness for C5, applying the verbatim-copy part at a concrete
non-module unit. -/
theorem claim_C5_declaration_writer_witness :
    writeDeclaration exCtx emptyGenState unitTiny =
      { emptyGenState with outputString := emptyGenState.outputString ++ unitTiny.text } :=
  claim_C5_declaration_writer.1 exCtx emptyGenState unitTiny rfl

set_option maxRecDepth 8192 in
/-- Counterexample to claim C6 as stated: the alias block built for
`main = "./b"`, `name = "pkg"` contains the verbatim specifier `./b` and
never mentions the module identifier `pkg/b`, so it does not declare a
re-export of module `pkg/b`. -/
theorem claim_C6_counterexample :
    ¬ ("pkg/b".toList <:+: mainAliasBlock "pkg".toList "./b".toList "\n".toList "\t".toList) ∧
    ("require(\x27./b\x27)".toList <:+:
      mainAliasBlock "pkg".toList "./b".toList "\n".toList "\t".toList) := by
  constructor <;> decide

/-- Claim C6 (amended): when a main-module alias is requested, a trailing
block is appended to the main buffer declaring the package name as an
alias that re-exports the `options.main` specifier verbatim (for
`main = "./b"` the block imports `\x27./b\x27`, not `pkg/b`). -/
theorem claim_C6_alias_block (opts : Options) (osEOL : List Char)
    (units : List SourceUnit) (ue : Option (List Char))
    (hm : mainRequested opts.main = true) :
    ((generate opts osEOL units ue).mainFileContent =
      ((if (unitsDelta opts osEOL units).wroteToOutputRef then
          refDirective (((mkCtx opts osEOL).outputRefPath).getD []) (resolveEol opts.eol osEOL)
        else []) ++
       externsText opts.externs (resolveEol opts.eol osEOL) ++
       (unitsDelta opts osEOL units).outputString) ++
      mainAliasBlock opts.name ((opts.main).getD []) (resolveEol opts.eol osEOL)
        (resolveIndent opts.indent)) ∧
    mainAliasBlock "pkg".toList "./b".toList "\n".toList "\t".toList =
      "declare module \x27pkg\x27 \x7b\n\timport main = require(\x27./b\x27);\n\texport = main;\n\x7d\n".toList := by
  constructor
  · rw [generate_mainFileContent]
    simp [hm, List.append_assoc]
  · decide

/-- Witness for C6 (amended), at a run with `main = "./b"`. -/
theorem claim_C6_alias_block_witness :
    (generate opts6 "\n".toList [] none).mainFileContent =
      ((if (unitsDelta opts6 "\n".toList []).wroteToOutputRef then
          refDirective (((mkCtx opts6 "\n".toList).outputRefPath).getD [])
            (resolveEol opts6.eol "\n".toList)
        else []) ++
       externsText opts6.externs (resolveEol opts6.eol "\n".toList) ++
       (unitsDelta opts6 "\n".toList []).outputString) ++
      mainAliasBlock opts6.name ((opts6.main).getD []) (resolveEol opts6.eol "\n".toList)
        (resolveIndent opts6.indent) :=
  (claim_C6_alias_block opts6 "\n".toList [] none rfl).1

/-- Counterexample to claim C7 as stated: with externs `x.d.ts`, `y.d.ts`
and a unit that hoists a reference directive, the successful run's main
output begins with the auxiliary-file directive, not with the extern
directive to `x.d.ts`. -/
theorem claim_C7_counterexample :
    (generate opts7 "\n".toList [unitRef] none).result = Except.ok () ∧
    (refDirective "/out/o.ref.d.ts".toList "\n".toList).isPrefixOf
      (generate opts7 "\n".toList [unitRef] none).mainFileContent = true ∧
    (refDirective "x.d.ts".toList "\n".toList).isPrefixOf
      (generate opts7 "\n".toList [unitRef] none).mainFileContent = false :=
  ⟨rfl, by decide, by decide⟩

/-- Claim C7 (amended): the main bundle is ordered as the auxiliary-file
reference directive (only when a directive was hoisted) first, then the
extern directives in the order given, then one block per processed unit
in enumeration order, then the optional trailing alias block. -/
theorem claim_C7_bundle_order (opts : Options) (osEOL : List Char)
    (units : List SourceUnit) (ue : Option (List Char)) :
    ((generate opts osEOL units ue).mainFileContent =
      (if (unitsDelta opts osEOL units).wroteToOutputRef then
        refDirective (((mkCtx opts osEOL).outputRefPath).getD []) (resolveEol opts.eol osEOL)
      else []) ++
      externsText opts.externs (resolveEol opts.eol osEOL) ++
      (unitsDelta opts osEOL units).outputString ++
      (if mainRequested opts.main then
        mainAliasBlock opts.name ((opts.main).getD []) (resolveEol opts.eol osEOL)
          (resolveIndent opts.indent)
      else [])) ∧
    (∀ (exts : List (List Char)) (eol : List Char),
      externsText (some exts) eol = (exts.map (fun p => refDirective p eol)).flatten) := by
  refine ⟨generate_mainFileContent opts osEOL units ue, ?_⟩
  intro exts eol
  show exts.foldl (fun acc path => acc ++ refDirective path eol) [] =
    (exts.map (fun p => refDirective p eol)).flatten
  rw [foldl_append_map]
  simp

/-- Claim C8: when no processed unit hoists a reference directive the
auxiliary file does not exist after a successful run, and the
`wroteToOutputRef` flag is set exactly when at least one directive line
was appended to the auxiliary buffer. -/
theorem claim_C8_ref_flag (opts : Options) (osEOL : List Char) (units : List SourceUnit)
    (ue : Option (List Char)) :
    ((runUnits opts osEOL units).1.wroteToOutputRef = false → ue = none →
      (generate opts osEOL units ue).refFileExists = false) ∧
    ((runUnits opts osEOL units).1.wroteToOutputRef = true ↔
      (runUnits opts osEOL units).1.outputRefString ≠ []) := by
  constructor
  · intro hw hu
    unfold generate
    simp [hw, hu]
  · have hinit : StInv (initState opts osEOL) := by
      simp [StInv, initState]
    exact stInv_processUnits (mkCtx opts osEOL) (runExcl opts osEOL) units
      (initState opts osEOL) hinit

/-- Witness for C8 at a run with no hoisted directives: the auxiliary
file is gone after success. -/
theorem claim_C8_ref_flag_witness :
    (generate opts1 "\n".toList [unitA] none).refFileExists = false :=
  (claim_C8_ref_flag opts1 "\n".toList [unitA] none).1 (by decide) rfl

/-- Claim C9: if deleting the empty auxiliary file fails, the run never
resolves successfully, and - when no unit had already failed - it is
rejected with exactly that file-system error. -/
theorem claim_C9_unlink_failure (opts : Options) (osEOL : List Char)
    (units : List SourceUnit) (um : List Char)
    (href : ((mkCtx opts osEOL).outputRefPath).isSome = true)
    (hw : (runUnits opts osEOL units).1.wroteToOutputRef = false) :
    (generate opts osEOL units (some um)).result ≠ Except.ok () ∧
    ((runUnits opts osEOL units).2 = none →
      (generate opts osEOL units (some um)).result = Except.error (GenError.fsError um)) := by
  cases herr : (runUnits opts osEOL units).2 with
  | some e =>
    constructor
    · unfold generate
      simp [herr]
    · intro hc
      exact Option.noConfusion hc
  | none =>
    cases hrp : (mkCtx opts osEOL).outputRefPath with
    | none =>
      rw [hrp] at href
      simp at href
    | some rp =>
      constructor
      · unfold generate
        simp [herr, hrp, hw]
      · intro _
        unfold generate
        simp [herr, hrp, hw]

/-- Witness for C9 at a concrete run whose auxiliary file is created,
left empty, and whose deletion fails. -/
theorem claim_C9_unlink_failure_witness :
    (generate opts1 "\n".toList [] (some "EPERM".toList)).result =
      Except.error (GenError.fsError "EPERM".toList) :=
  (claim_C9_unlink_failure opts1 "\n".toList [] "EPERM".toList rfl rfl).2 rfl

/-- Claim C10: at the public interface an empty-string `eol` falls back to
the platform default (any falsy value does), while an empty-string
`indent` is honoured as-is and only an absent `indent` gets the one-tab
default. -/
theorem claim_C10_eol_indent_defaults (osEOL : List Char) (opts : Options) :
    resolveEol (some []) osEOL = osEOL ∧
    resolveEol none osEOL = osEOL ∧
    (∀ e : List Char, e ≠ [] → resolveEol (some e) osEOL = e) ∧
    resolveIndent (some []) = [] ∧
    resolveIndent none = "\t".toList ∧
    (∀ i : List Char, resolveIndent (some i) = i) ∧
    (mkCtx opts osEOL).eol = resolveEol opts.eol osEOL ∧
    (mkCtx opts osEOL).indent = resolveIndent opts.indent := by
  refine ⟨rfl, rfl, ?_, rfl, rfl, fun i => rfl, rfl, rfl⟩
  intro e he
  show (if e = [] then osEOL else e) = e
  rw [if_neg he]

/-- Witness for C10: a non-empty `eol` is kept as given. -/
theorem claim_C10_eol_indent_defaults_witness :
    resolveEol (some "\r\n".toList) "\n".toList = "\r\n".toList :=
  (claim_C10_eol_indent_defaults "\n".toList opts1).2.2.1 "\r\n".toList (by decide)

end DtsGen
